import Mathlib

/-!
Verification of the question segmentation and classification core of `app.py`
(JEE question analyzer).

The embedding models Python strings as `List Char`.  Python's `str.lower` and
`str.strip` are modelled for ASCII text (`lowerChar`, `pyStrip`); Python's
`\s` character class is modelled by the six ASCII whitespace characters
(`isPySpace`).  Paragraphs produced by the program's own splitting step never
contain `'\n'`, and theorems that rely on that fact carry it as a hypothesis.
-/

namespace JEE

/-- One paragraph / line of text, modelled as a list of characters. -/
abbrev Para := List Char

/-- ASCII whitespace, the characters matched by Python's `str.strip()` and
by `\s` on ASCII text. -/
def isPySpace (c : Char) : Bool :=
  c = ' ' || c = '\t' || c = '\n' || c = '\r' || c = '\u000B' || c = '\u000C'

/-- ASCII decimal digit, the characters matched by `\d` on ASCII text. -/
def isDigitC (c : Char) : Bool :=
  '0' ≤ c && c ≤ '9'

/-- ASCII lowering, modelling `str.lower()` on ASCII text. -/
def lowerChar (c : Char) : Char :=
  if 'A' ≤ c && c ≤ 'Z' then Char.ofNat (c.toNat + 32) else c

/-- `str.lower()` over a whole string. -/
def pyLower (s : Para) : Para := s.map lowerChar

/-- `str.strip()`: drop ASCII whitespace from both ends. -/
def pyStrip (s : Para) : Para :=
  ((s.dropWhile isPySpace).reverse.dropWhile isPySpace).reverse

/-- The character class `[a-d]` under `re.IGNORECASE`. -/
def isOptLetter (c : Char) : Bool :=
  'a' ≤ lowerChar c && lowerChar c ≤ 'd'

/-- Substring containment, modelling Python's `sub in s`. -/
def containsSub (sub s : Para) : Bool :=
  decide (sub <:+: s)

/-- The `solution_indicators` list of `is_question` (app.py lines 31-32). -/
def solution_indicators : List Para :=
  [ "solution:".data, "answer key".data, "explanation:".data, "answers:".data,
    "correct option".data, "key answers".data, "sol.".data, "ans.".data ]

/-- The `question_indicators` list of `is_question` (app.py lines 41-42). -/
def question_indicators : List Para :=
  [ "what".data, "which".data, "how many".data, "calculate".data, "determine".data,
    "find".data, "prove".data, "show that".data, "ratio of".data, "value of".data ]

/-- The regex `^\s*\d+\.?\s*[a-d]\s*$` with `re.IGNORECASE` (app.py line 37).
Every quantifier in the pattern is determined greedily; no backtracking can
change the outcome, so a straight-line parser is an exact model. -/
def matchAnswerKeyRe (s : Para) : Bool :=
  let t1 := s.dropWhile isPySpace
  let ds := t1.takeWhile isDigitC
  if ds.isEmpty then false
  else
    let t2 := t1.dropWhile isDigitC
    let t3 := if t2.head? = some '.' then t2.tail else t2
    match t3.dropWhile isPySpace with
    | c :: r => isOptLetter c && r.all isPySpace
    | [] => false

/-- The suffix `\s*\d+[.)]` of the question-numbering regex. -/
def tailQNum (t : Para) : Bool :=
  let t1 := t.dropWhile isPySpace
  if (t1.takeWhile isDigitC).isEmpty then false
  else
    match t1.dropWhile isDigitC with
    | c :: _ => c = '.' || c = ')'
    | [] => false

/-- Case-insensitive prefix test (used for the `(Q|Question)?` alternation). -/
def prefixCI (pat t : Para) : Bool :=
  pat.isPrefixOf (pyLower t)

/-- The regex `^\s*(Q|Question)?\s*\d+[.)]` with `re.IGNORECASE`
(app.py line 47).  The alternation tries `Q`, then `Question`, then the
empty branch; the model takes the disjunction of the three, which has the
same truth value. -/
def matchQNumRe (s : Para) : Bool :=
  let t := s.dropWhile isPySpace
  (prefixCI "q".data t && tailQNum (t.drop 1)) ||
  (prefixCI "question".data t && tailQNum (t.drop 8)) ||
  tailQNum t

/-- `is_question` (app.py lines 22-50): decide whether a paragraph is likely
a question start (and not a solution / answer-key line). -/
def is_question (s : Para) : Bool :=
  let text := pyStrip (pyLower s)
  if text.length < 20 then false
  else if solution_indicators.any (fun ind => containsSub ind text) then false
  else if matchAnswerKeyRe text then false
  else if question_indicators.any (fun ind => containsSub ind text) then true
  else matchQNumRe (text.take 20)

/-- The option-line regex `^\s*\(([a-d])\)\s*(.*)$` with `re.IGNORECASE`
(app.py line 86), returning `(letter, body)` on a match.  Exact for
paragraphs that contain no `'\n'` (the program's splitting step guarantees
this for every paragraph it feeds in). -/
def match_option (s : Para) : Option (Char × Para) :=
  match s.dropWhile isPySpace with
  | a :: c :: b :: rest =>
      if a = '(' && b = ')' && isOptLetter c then some (c, rest.dropWhile isPySpace)
      else none
  | _ => none

/-- The question record built by the assembler (app.py lines 75-82). -/
structure Question where
  number : Para
  text : Para
  subject : Option String
  options : List Para
  answer : Option Nat
  marked : Bool
  deriving DecidableEq, Repr

/-- Mutable state of the assembly loop (app.py lines 62-64). -/
structure EState where
  questions : List Question
  current : Option Question
  qnum : Nat
  deriving DecidableEq, Repr

/-- A freshly started question (app.py lines 75-82). -/
def newQuestion (n : Nat) (para : Para) : Question :=
  { number := (Nat.repr n).data, text := para, subject := none,
    options := [], answer := none, marked := false }

/-- One iteration of the assembly loop (app.py lines 66-91). -/
def stepPara (st : EState) (para : Para) : EState :=
  if is_question para then
    let st' := match st.current with
      | some _ => { st with questions := st.questions ++ st.current.toList,
                            qnum := st.qnum + 1 }
      | none => st
    { st' with current := some (newQuestion st'.qnum para) }
  else
    match st.current with
    | some cq =>
        match match_option para with
        | some (_, body) =>
            { st with current := some { cq with options := cq.options ++ [body] } }
        | none =>
            { st with current := some { cq with text := cq.text ++ '\n' :: para } }
    | none => st

/-- The paragraph-assembly loop of `extract_questions_from_pdf`
(app.py lines 62-97), taking the already-flattened paragraph sequence. -/
def extract_questions (paragraphs : List Para) : List Question :=
  let fin := paragraphs.foldl stepPara { questions := [], current := none, qnum := 1 }
  match fin.current with
  | some cq => fin.questions ++ [cq]
  | none => fin.questions

/-- The fixed candidate label set (app.py line 20). -/
def CATEGORIES : List String := ["Mathematics", "Physics", "Chemistry"]

/-- `classify_question` (app.py lines 99-104): the classifier capability is
an optional black-box function from the question text and the candidate
labels to the best label; when it is unset the result is unset. -/
def classify_question (classifier : Option (Para → List String → String))
    (question_text : Para) : Option String :=
  match classifier with
  | some f => some (f question_text CATEGORIES)
  | none => none

/-- The four placeholder options for a question number (app.py lines 329-334). -/
def mock_options (number : Para) : List Para :=
  [ "Option A for question ".data ++ number,
    "Option B for question ".data ++ number,
    "Option C for question ".data ++ number,
    "Option D for question ".data ++ number ]

/-- Option Backfill (app.py lines 327-334): replace an empty option list by
the four placeholders. -/
def backfill (qs : List Question) : List Question :=
  qs.map fun q =>
    if q.options.isEmpty then { q with options := mock_options q.number } else q

/-- The classification-and-backfill loop of `main` (app.py lines 324-334). -/
def process_questions (classifier : Option (Para → List String → String))
    (qs : List Question) : List Question :=
  qs.map fun q =>
    let q1 := { q with subject := classify_question classifier q.text }
    if q1.options.isEmpty then { q1 with options := mock_options q1.number } else q1

/-- The first line of a text block (everything before the first `'\n'`). -/
def firstLine (s : Para) : Para := s.takeWhile (fun c => c != '\n')

/-- Lowercase ASCII letters. -/
def isLowerAlpha (c : Char) : Bool := 'a' ≤ c && c ≤ 'z'

/-- Drop ASCII whitespace from the right end only. -/
def rdrop (s : Para) : Para := (s.reverse.dropWhile isPySpace).reverse

/-- Modelled from the spec (§4.1, claim C4): a paragraph whose entire content
is "optional leading number, optional period, single option letter a-d,
nothing else" (case-insensitive), whitespace allowed where the source regex
allows it. -/
def specAnswerKeyRow (s : Para) : Prop :=
  ∃ w1 ds dot w2 c w3,
    s = w1 ++ ds ++ dot ++ w2 ++ [c] ++ w3 ∧
    (∀ a ∈ w1, isPySpace a = true) ∧
    (∀ a ∈ ds, isDigitC a = true) ∧
    (dot = [] ∨ (ds ≠ [] ∧ dot = ['.'])) ∧
    (∀ a ∈ w2, isPySpace a = true) ∧
    isOptLetter c = true ∧
    (∀ a ∈ w3, isPySpace a = true)

/-- Modelled from the spec (§4.2, claim C5): a paragraph of the form
"optional leading whitespace, `(`, single letter a-d case-insensitive, `)`,
whitespace, remaining text". -/
def specOptionForm (s : Para) : Prop :=
  ∃ w1 c w2 body,
    s = w1 ++ '(' :: c :: ')' :: (w2 ++ body) ∧
    (∀ a ∈ w1, isPySpace a = true) ∧
    isOptLetter c = true ∧
    (∀ a ∈ w2, isPySpace a = true)

/-- Scenario A input paragraphs (spec §8). -/
def scenarioA : List Para :=
  [ "Instructions: read carefully.".data,
    "1. What is the value of g?".data,
    "(a) 9.8".data,
    "(b) 10".data,
    "Solution: g = 9.8 m/s^2".data,
    "2. Find the ratio of masses.".data,
    "(a) 1:2".data ]

/-! ### Character-class facts -/

theorem isPySpace_cases {c : Char} (h : isPySpace c = true) :
    c = ' ' ∨ c = '\t' ∨ c = '\n' ∨ c = '\r' ∨ c = '\u000B' ∨ c = '\u000C' := by
  have h' := h
  simp only [isPySpace, Bool.or_eq_true, decide_eq_true_eq] at h'
  tauto

theorem lowerChar_space {c : Char} (h : isPySpace c = true) : lowerChar c = c := by
  rcases isPySpace_cases h with rfl | rfl | rfl | rfl | rfl | rfl <;> decide

theorem not_space_of_digit {c : Char} (h : isDigitC c = true) : isPySpace c = false := by
  cases hs : isPySpace c with
  | false => rfl
  | true =>
      rcases isPySpace_cases hs with rfl | rfl | rfl | rfl | rfl | rfl <;>
        exact absurd h (by decide)

theorem not_digit_of_space {c : Char} (h : isPySpace c = true) : isDigitC c = false := by
  rcases isPySpace_cases h with rfl | rfl | rfl | rfl | rfl | rfl <;> decide

theorem digit_bounds {c : Char} (h : isDigitC c = true) : '0' ≤ c ∧ c ≤ '9' := by
  simpa [isDigitC, Bool.and_eq_true, decide_eq_true_eq] using h

theorem lowerChar_digit {c : Char} (h : isDigitC c = true) : lowerChar c = c := by
  have h2 : c ≤ '9' := (digit_bounds h).2
  have hA : ¬ ('A' ≤ c) := not_le.mpr (lt_of_le_of_lt h2 (by decide))
  simp only [lowerChar, Bool.and_eq_true, decide_eq_true_eq]
  rw [if_neg]
  rintro ⟨hA', _⟩
  exact hA hA'

theorem lowerChar_fixed_of_ge_a {c : Char} (h : 'a' ≤ c) : lowerChar c = c := by
  have hZ : ¬ (c ≤ 'Z') := not_le.mpr (lt_of_lt_of_le (by decide) h)
  simp only [lowerChar, Bool.and_eq_true, decide_eq_true_eq]
  rw [if_neg]
  rintro ⟨_, hZ'⟩
  exact hZ hZ'

theorem not_space_of_ge_a {c : Char} (h : 'a' ≤ c) : isPySpace c = false := by
  cases hs : isPySpace c with
  | false => rfl
  | true =>
      rcases isPySpace_cases hs with rfl | rfl | rfl | rfl | rfl | rfl <;>
        exact absurd h (by decide)

theorem not_digit_of_ge_a {c : Char} (h : 'a' ≤ c) : isDigitC c = false := by
  cases hd : isDigitC c with
  | false => rfl
  | true =>
      have h2 : c ≤ '9' := (digit_bounds hd).2
      exact absurd (le_trans h h2) (by decide)

theorem not_alpha_of_digit {c : Char} (h : isDigitC c = true) : isLowerAlpha c = false := by
  cases ha : isLowerAlpha c with
  | false => rfl
  | true =>
      have h1 : 'a' ≤ c := by
        have := ha
        simp only [isLowerAlpha, Bool.and_eq_true, decide_eq_true_eq] at this
        exact this.1
      exact absurd (le_trans h1 (digit_bounds h).2) (by decide)

theorem not_alpha_of_space {c : Char} (h : isPySpace c = true) : isLowerAlpha c = false := by
  rcases isPySpace_cases h with rfl | rfl | rfl | rfl | rfl | rfl <;> decide

theorem optLetter_bounds {c : Char} (h : isOptLetter c = true) :
    'a' ≤ lowerChar c ∧ lowerChar c ≤ 'd' := by
  simpa [isOptLetter, Bool.and_eq_true, decide_eq_true_eq] using h

theorem optLetter_lowered {c : Char} (h : isOptLetter c = true) :
    isOptLetter (lowerChar c) = true := by
  obtain ⟨h1, h2⟩ := optLetter_bounds h
  simp only [isOptLetter, Bool.and_eq_true, decide_eq_true_eq,
    lowerChar_fixed_of_ge_a h1]
  exact ⟨h1, h2⟩

theorem alpha_of_optLetter_lowered {c : Char} (h : isOptLetter c = true) :
    isLowerAlpha (lowerChar c) = true := by
  obtain ⟨h1, h2⟩ := optLetter_bounds h
  simp only [isLowerAlpha, Bool.and_eq_true, decide_eq_true_eq]
  exact ⟨h1, le_trans h2 (by decide)⟩

theorem pyLower_fixed {l : Para} (h : ∀ a ∈ l, lowerChar a = a) : pyLower l = l := by
  unfold pyLower
  induction l with
  | nil => rfl
  | cons a l ih =>
      simp only [List.map_cons, h a (by simp)]
      rw [ih (fun x hx => h x (by simp [hx]))]

/-! ### List-level helpers: takeWhile, dropWhile, strip -/

theorem takeWhile_nil_of_head {p : Char → Bool} {l : Para}
    (h : ∀ x, l.head? = some x → p x = false) : l.takeWhile p = [] := by
  cases l with
  | nil => rfl
  | cons a l => simp [List.takeWhile_cons, h a rfl]

theorem dropWhile_self_of_head {p : Char → Bool} {l : Para}
    (h : ∀ x, l.head? = some x → p x = false) : l.dropWhile p = l := by
  cases l with
  | nil => rfl
  | cons a l => simp [List.dropWhile_cons, h a rfl]

theorem head_dropWhile_false {p : Char → Bool} :
    ∀ (l : Para) (x : Char), (l.dropWhile p).head? = some x → p x = false := by
  intro l
  induction l with
  | nil => intro x hx; simp at hx
  | cons a l ih =>
      intro x hx
      rw [List.dropWhile_cons] at hx
      by_cases hpa : p a = true
      · rw [if_pos hpa] at hx
        exact ih x hx
      · rw [if_neg hpa] at hx
        simp only [List.head?_cons, Option.some.injEq] at hx
        subst hx
        exact Bool.eq_false_iff.mpr hpa

theorem rdrop_append_spaces {w l : Para} (hw : ∀ a ∈ w, isPySpace a = true) :
    rdrop (l ++ w) = rdrop l := by
  unfold rdrop
  rw [List.reverse_append,
    List.dropWhile_append_of_pos (fun a ha => hw a (List.mem_reverse.mp ha))]

theorem rdrop_eq_self_of_last {l : Para}
    (h : ∀ x, l.getLast? = some x → isPySpace x = false) : rdrop l = l := by
  unfold rdrop
  rw [dropWhile_self_of_head (fun x hx => h x (by rwa [List.head?_reverse] at hx))]
  exact List.reverse_reverse l

theorem pyStrip_eq_rdrop (s : Para) : pyStrip s = rdrop (s.dropWhile isPySpace) := rfl

theorem dropWhile_eq_nil_of_all {p : Char → Bool} {l : Para}
    (h : ∀ a ∈ l, p a = true) : l.dropWhile p = [] := by
  induction l with
  | nil => rfl
  | cons a l ih =>
      rw [List.dropWhile_cons, if_pos (h a (by simp))]
      exact ih fun x hx => h x (by simp [hx])

theorem pyStrip_sandwich (w1 w3 core : Para)
    (hw1 : ∀ a ∈ w1, isPySpace a = true) (hw3 : ∀ a ∈ w3, isPySpace a = true)
    (hh : ∀ x, core.head? = some x → isPySpace x = false)
    (hl : ∀ x, core.getLast? = some x → isPySpace x = false) :
    pyStrip (w1 ++ core ++ w3) = core := by
  cases core with
  | nil =>
      rw [pyStrip_eq_rdrop, List.append_nil, List.dropWhile_append_of_pos hw1,
        dropWhile_eq_nil_of_all hw3]
      rfl
  | cons c0 rest =>
      rw [pyStrip_eq_rdrop]
      have h1 : (w1 ++ (c0 :: rest) ++ w3).dropWhile isPySpace = (c0 :: rest) ++ w3 := by
        rw [List.append_assoc, List.dropWhile_append_of_pos hw1, List.cons_append,
          List.dropWhile_cons, hh c0 rfl]
        simp
      rw [h1, rdrop_append_spaces hw3, rdrop_eq_self_of_last hl]

/-! ### Infix is preserved by lowering-stripping when the ends are non-space -/

theorem infix_dropWhile {p : Char → Bool} {ind : Para}
    (hne : ind ≠ []) (hh : ∀ x, ind.head? = some x → p x = false) :
    ∀ {l : Para}, ind <:+: l → ind <:+: l.dropWhile p := by
  intro l
  induction l with
  | nil =>
      intro hin
      rw [List.infix_nil] at hin
      exact absurd hin hne
  | cons b l ih =>
      intro hin
      by_cases hpb : p b = true
      · rw [List.dropWhile_cons, if_pos hpb]
        apply ih
        obtain ⟨s, t, he⟩ := hin
        cases s with
        | nil =>
            cases ind with
            | nil => exact absurd rfl hne
            | cons x ind' =>
                simp only [List.nil_append, List.cons_append, List.cons.injEq] at he
                obtain ⟨rfl, -⟩ := he
                exact absurd hpb (by simp [hh x rfl])
        | cons s0 s' =>
            simp only [List.cons_append, List.cons.injEq] at he
            exact ⟨s', t, he.2⟩
      · rw [List.dropWhile_cons, if_neg hpb]
        exact hin

/-- Decidable form of "the first character, if any, is not whitespace". -/
def headNotSpace (l : Para) : Bool :=
  match l.head? with
  | some x => !isPySpace x
  | none => true

/-- Decidable form of "the last character, if any, is not whitespace". -/
def lastNotSpace (l : Para) : Bool :=
  match l.getLast? with
  | some x => !isPySpace x
  | none => true

theorem headNotSpace_spec {l : Para} (h : headNotSpace l = true) :
    ∀ x, l.head? = some x → isPySpace x = false := by
  intro x hx
  unfold headNotSpace at h
  rw [hx] at h
  simpa using h

theorem lastNotSpace_spec {l : Para} (h : lastNotSpace l = true) :
    ∀ x, l.getLast? = some x → isPySpace x = false := by
  intro x hx
  unfold lastNotSpace at h
  rw [hx] at h
  simpa using h

theorem infix_pyStrip {ind l : Para}
    (hne : ind ≠ []) (hh : headNotSpace ind = true) (hl : lastNotSpace ind = true)
    (hin : ind <:+: l) : ind <:+: pyStrip l := by
  have h1 : ind <:+: l.dropWhile isPySpace :=
    infix_dropWhile hne (headNotSpace_spec hh) hin
  have h2 : ind.reverse <:+: (l.dropWhile isPySpace).reverse :=
    List.reverse_infix.mpr h1
  have h3 : ind.reverse <:+: (l.dropWhile isPySpace).reverse.dropWhile isPySpace := by
    refine infix_dropWhile ?_ ?_ h2
    · simpa using hne
    · intro x hx
      exact lastNotSpace_spec hl x (by rwa [List.head?_reverse] at hx)
  have h4 := List.reverse_infix.mpr h3
  simpa [pyStrip] using h4

/-- Every solution indicator is non-empty with non-whitespace end characters. -/
theorem solution_indicator_ends :
    ∀ ind ∈ solution_indicators,
      ind ≠ [] ∧ headNotSpace ind = true ∧ lastNotSpace ind = true := by
  decide

/-- Shared core fact: a paragraph containing a solution indicator
(case-insensitively) is never classified as a question. -/
theorem is_question_false_of_indicator {s ind : Para}
    (hmem : ind ∈ solution_indicators) (hin : ind <:+: pyLower s) :
    is_question s = false := by
  by_cases hlen : (pyStrip (pyLower s)).length < 20
  · simp [is_question, hlen]
  · obtain ⟨hne, hh, hl⟩ := solution_indicator_ends ind hmem
    have hint : ind <:+: pyStrip (pyLower s) := infix_pyStrip hne hh hl hin
    have hany :
        solution_indicators.any (fun i => containsSub i (pyStrip (pyLower s))) = true :=
      List.any_eq_true.mpr ⟨ind, hmem, by simpa [containsSub] using hint⟩
    simp [is_question, hlen, hany]

/-- A paragraph classified as a question has (after lowering and stripping)
at least 20 characters. -/
theorem len_ge_of_is_question {s : Para} (h : is_question s = true) :
    20 ≤ (pyStrip (pyLower s)).length := by
  by_contra hlt
  have hlt' : (pyStrip (pyLower s)).length < 20 := Nat.lt_of_not_le hlt
  have hfalse : is_question s = false := by simp [is_question, hlt']
  rw [hfalse] at h
  exact absurd h (by decide)

/-- A paragraph classified as a question contains no solution indicator. -/
theorem no_indicator_of_is_question {s : Para} (h : is_question s = true) :
    ∀ ind ∈ solution_indicators, ¬ ind <:+: pyLower s := by
  intro ind hmem hin
  rw [is_question_false_of_indicator hmem hin] at h
  exact absurd h (by decide)

/-- Claim C3: for every paragraph that contains (case-insensitively) any of
the solution-indicator substrings, `is_question` returns false, regardless of
any other content of the paragraph. -/
theorem claim_C3 (s : Para)
    (h : ∃ ind ∈ solution_indicators, ind <:+: pyLower s) :
    is_question s = false := by
  obtain ⟨ind, hmem, hin⟩ := h
  exact is_question_false_of_indicator hmem hin

/-- Witness for claim C3 at a concrete paragraph containing "answer key"
together with a question-indicator word and a numbering pattern. -/
theorem claim_C3_witness :
    (∃ ind ∈ solution_indicators,
        ind <:+: pyLower "1. Answer key: what is the value of g?".data) ∧
    is_question "1. Answer key: what is the value of g?".data = false :=
  ⟨⟨"answer key".data, by decide, by decide⟩,
    claim_C3 _ ⟨"answer key".data, by decide, by decide⟩⟩

/-! ### The assembler invariant for question numbering (claim C2) -/

/-- Invariant of the assembly loop after `t` question-start paragraphs have
been consumed: the flushed questions carry numbers `"1" .. "t-1"`, the
current question (present iff `t > 0`) carries number `"t"`, and the
`question_number` counter equals `max t 1`. -/
def InvState : EState → Nat → Prop
  | st, 0 => st.questions = [] ∧ st.current = none ∧ st.qnum = 1
  | st, t + 1 =>
      st.questions.map Question.number
        = (List.range t).map (fun i => (Nat.repr (i + 1)).data) ∧
      (∃ cq, st.current = some cq ∧ cq.number = (Nat.repr (t + 1)).data) ∧
      st.qnum = t + 1

theorem stepPara_inv {st : EState} {t : Nat} (p : Para) (h : InvState st t) :
    InvState (stepPara st p) (t + (if is_question p then 1 else 0)) := by
  by_cases hq : is_question p = true
  · rw [hq, if_pos rfl]
    cases t with
    | zero =>
        obtain ⟨hqs, hcur, hqn⟩ := h
        simp only [stepPara, hq, if_true, hcur]
        exact ⟨by simp [hqs], ⟨newQuestion st.qnum p, rfl, by simp [hqn, newQuestion]⟩, hqn⟩
    | succ t' =>
        obtain ⟨hmap, ⟨cq, hcur, hnum⟩, hqn⟩ := h
        simp only [stepPara, hq, if_true, hcur, Option.toList_some]
        refine ⟨?_, ⟨newQuestion (st.qnum + 1) p, rfl, by simp [hqn, newQuestion]⟩, by rw [hqn]⟩
        rw [List.map_append, hmap, List.range_succ, List.map_append]
        simp [hnum]
  · have hq' : is_question p = false := Bool.eq_false_iff.mpr hq
    rw [hq', if_neg (by simp), Nat.add_zero]
    cases hc : st.current with
    | none =>
        simpa only [stepPara, hq', Bool.false_eq_true, if_false, hc] using h
    | some cq =>
        cases t with
        | zero =>
            obtain ⟨-, hcur, -⟩ := h
            rw [hc] at hcur
            exact absurd hcur (by simp)
        | succ t' =>
            obtain ⟨hmap, ⟨cq', hcur, hnum⟩, hqn⟩ := h
            rw [hc] at hcur
            obtain rfl : cq = cq' := by injection hcur
            cases hmo : match_option p with
            | some pr =>
                obtain ⟨c, body⟩ := pr
                simp only [stepPara, hq', Bool.false_eq_true, if_false, hc, hmo]
                exact ⟨hmap, ⟨_, rfl, hnum⟩, hqn⟩
            | none =>
                simp only [stepPara, hq', Bool.false_eq_true, if_false, hc, hmo]
                exact ⟨hmap, ⟨_, rfl, hnum⟩, hqn⟩

theorem foldl_inv (ps : List Para) :
    ∀ (st : EState) (t : Nat), InvState st t →
      InvState (ps.foldl stepPara st) (t + ps.countP is_question) := by
  induction ps with
  | nil => intro st t h; simpa using h
  | cons p ps ih =>
      intro st t h
      rw [List.foldl_cons, List.countP_cons]
      have h2 := ih _ _ (stepPara_inv p h)
      have harith :
          t + (ps.countP is_question + if is_question p then 1 else 0)
            = (t + if is_question p then 1 else 0) + ps.countP is_question := by
        omega
      rw [harith]
      exact h2

/-- Claim C2: for every paragraph sequence, the number of questions output by
the assembler equals the number of paragraphs classified as question starts,
the `number` fields are exactly "1", "2", ..., "k" in order, and the empty
paragraph sequence yields an empty output. -/
theorem claim_C2 :
    (∀ ps : List Para,
        (extract_questions ps).map Question.number
          = (List.range (ps.countP is_question)).map (fun i => (Nat.repr (i + 1)).data) ∧
        (extract_questions ps).length = ps.countP is_question) ∧
    extract_questions [] = [] := by
  constructor
  · intro ps
    have h := foldl_inv ps { questions := [], current := none, qnum := 1 } 0
      ⟨rfl, rfl, rfl⟩
    rw [Nat.zero_add] at h
    cases hk : ps.countP is_question with
    | zero =>
        rw [hk] at h
        obtain ⟨hqs, hcur, -⟩ := h
        constructor
        · simp [extract_questions, hcur, hqs]
        · simp [extract_questions, hcur, hqs]
    | succ t' =>
        rw [hk] at h
        obtain ⟨hmap, ⟨cq, hcur, hnum⟩, -⟩ := h
        have hout : extract_questions ps
            = (ps.foldl stepPara { questions := [], current := none, qnum := 1 }).questions
              ++ [cq] := by
          simp [extract_questions, hcur]
        constructor
        · rw [hout, List.map_append, hmap, List.range_succ, List.map_append]
          simp [hnum]
        · have hlen := congrArg List.length
            (by rw [hout, List.map_append, hmap] :
              (extract_questions ps).map Question.number
                = (List.range t').map (fun i => (Nat.repr (i + 1)).data)
                  ++ [cq].map Question.number)
          simpa using hlen
  · rfl

/-! ### The text-shape invariant of assembled questions (claim C9) -/

/-- The text of a question consists of a triggering paragraph (a member of
the input on which `is_question` returned true) followed by the appended
continuation block, which is empty or starts with `'\n'`. -/
def GoodText (ps : List Para) (q : Question) : Prop :=
  ∃ p rest, q.text = p ++ rest ∧ p ∈ ps ∧ is_question p = true ∧ '\n' ∉ p ∧
    (rest = [] ∨ rest.head? = some '\n')

/-- `GoodText` holds of every flushed question and of the current one. -/
def InvGood (ps : List Para) (st : EState) : Prop :=
  (∀ q ∈ st.questions, GoodText ps q) ∧ (∀ q, st.current = some q → GoodText ps q)

theorem stepPara_good {ps : List Para} {st : EState} {p : Para}
    (hp : p ∈ ps) (hnl : '\n' ∉ p) (h : InvGood ps st) :
    InvGood ps (stepPara st p) := by
  obtain ⟨hqs, hcur⟩ := h
  by_cases hq : is_question p = true
  · cases hc : st.current with
    | none =>
        simp only [stepPara, hq, if_true, hc]
        refine ⟨hqs, ?_⟩
        intro q hqq
        obtain rfl := (Option.some.inj hqq).symm
        exact ⟨p, [], by simp [newQuestion], hp, hq, hnl, Or.inl rfl⟩
    | some cq =>
        simp only [stepPara, hq, if_true, hc, Option.toList_some]
        constructor
        · intro q hmem
          rw [List.mem_append] at hmem
          rcases hmem with hmem | hmem
          · exact hqs q hmem
          · rw [List.mem_singleton] at hmem
            subst hmem
            exact hcur q hc
        · intro q hqq
          obtain rfl := (Option.some.inj hqq).symm
          exact ⟨p, [], by simp [newQuestion], hp, hq, hnl, Or.inl rfl⟩
  · have hq' : is_question p = false := Bool.eq_false_iff.mpr hq
    cases hc : st.current with
    | none =>
        have hstep : stepPara st p = st := by
          simp only [stepPara, hq', Bool.false_eq_true, if_false, hc]
        rw [hstep]
        exact ⟨hqs, hcur⟩
    | some cq =>
        have hgood := hcur cq hc
        cases hmo : match_option p with
        | some pr =>
            obtain ⟨c, body⟩ := pr
            simp only [stepPara, hq', Bool.false_eq_true, if_false, hc, hmo]
            refine ⟨hqs, ?_⟩
            intro q hqq
            obtain rfl := (Option.some.inj hqq).symm
            obtain ⟨p0, rest, htext, hp0, hq0, hnl0, hrest⟩ := hgood
            exact ⟨p0, rest, htext, hp0, hq0, hnl0, hrest⟩
        | none =>
            simp only [stepPara, hq', Bool.false_eq_true, if_false, hc, hmo]
            refine ⟨hqs, ?_⟩
            intro q hqq
            obtain rfl := (Option.some.inj hqq).symm
            obtain ⟨p0, rest, htext, hp0, hq0, hnl0, hrest⟩ := hgood
            refine ⟨p0, rest ++ '\n' :: p, ?_, hp0, hq0, hnl0, ?_⟩
            · show cq.text ++ '\n' :: p = p0 ++ (rest ++ '\n' :: p)
              rw [htext, List.append_assoc]
            · right
              rcases hrest with rfl | hh
              · simp
              · cases rest with
                | nil => exact absurd hh (by simp)
                | cons x rs =>
                    simp only [List.head?_cons, Option.some.injEq] at hh
                    subst hh
                    simp

theorem foldl_good {ps : List Para} :
    ∀ (l : List Para) (st : EState), (∀ p ∈ l, p ∈ ps ∧ '\n' ∉ p) →
      InvGood ps st → InvGood ps (l.foldl stepPara st) := by
  intro l
  induction l with
  | nil => intro st _ h; exact h
  | cons p l ih =>
      intro st hl h
      rw [List.foldl_cons]
      exact ih _ (fun x hx => hl x (by simp [hx]))
        (stepPara_good (hl p (by simp)).1 (hl p (by simp)).2 h)

theorem firstLine_of_decomp {p rest : Para} (hnl : '\n' ∉ p)
    (hrest : rest = [] ∨ rest.head? = some '\n') :
    firstLine (p ++ rest) = p := by
  have hall : ∀ a ∈ p, (a != '\n') = true := by
    intro a ha
    have hne : a ≠ '\n' := fun hc => hnl (hc ▸ ha)
    simpa using hne
  unfold firstLine
  rw [List.takeWhile_append_of_pos hall]
  rcases hrest with rfl | hh
  · simp
  · cases rest with
    | nil => exact absurd hh (by simp)
    | cons x rs =>
        simp only [List.head?_cons, Option.some.injEq] at hh
        subst hh
        simp [List.takeWhile_cons]

/-- Claim C9: the first line of every emitted question's text is a paragraph
of the input on which `is_question` returned true; consequently it is at
least 20 characters long after lowering and trimming, and contains no
solution-indicator substring. -/
theorem claim_C9 (ps : List Para) (hnl : ∀ p ∈ ps, '\n' ∉ p) :
    ∀ q ∈ extract_questions ps,
      firstLine q.text ∈ ps ∧ is_question (firstLine q.text) = true ∧
      20 ≤ (pyStrip (pyLower (firstLine q.text))).length ∧
      ∀ ind ∈ solution_indicators, ¬ ind <:+: pyLower (firstLine q.text) := by
  intro q hq
  have hinv : InvGood ps
      (ps.foldl stepPara { questions := [], current := none, qnum := 1 }) :=
    foldl_good ps _ (fun p hp => ⟨hp, hnl p hp⟩) ⟨by simp, by simp⟩
  obtain ⟨h1, h2⟩ := hinv
  have hgood : GoodText ps q := by
    simp only [extract_questions] at hq
    split at hq
    · rename_i cq hc
      rw [List.mem_append] at hq
      rcases hq with hq | hq
      · exact h1 q hq
      · rw [List.mem_singleton] at hq
        subst hq
        exact h2 q hc
    · exact h1 q hq
  obtain ⟨p0, rest, htext, hp0, hq0, hnl0, hrest⟩ := hgood
  have hfl : firstLine q.text = p0 := by
    rw [htext]
    exact firstLine_of_decomp hnl0 hrest
  rw [hfl]
  exact ⟨hp0, hq0, len_ge_of_is_question hq0, no_indicator_of_is_question hq0⟩

/-- Witness for claim C9 on the Scenario A paragraph sequence. -/
theorem claim_C9_witness :
    (∀ p ∈ scenarioA, '\n' ∉ p) ∧
    (∀ q ∈ extract_questions scenarioA,
      firstLine q.text ∈ scenarioA ∧ is_question (firstLine q.text) = true ∧
      20 ≤ (pyStrip (pyLower (firstLine q.text))).length ∧
      ∀ ind ∈ solution_indicators, ¬ ind <:+: pyLower (firstLine q.text)) :=
  ⟨by decide, claim_C9 scenarioA (by decide)⟩

/-! ### Computation lemmas for the option matcher (claims C5, C10) -/

theorem match_option_pos {w1 : Para} (hw1 : ∀ a ∈ w1, isPySpace a = true)
    {c : Char} (hc : isOptLetter c = true) (rest : Para) :
    match_option (w1 ++ '(' :: c :: ')' :: rest)
      = some (c, rest.dropWhile isPySpace) := by
  unfold match_option
  have h1 : (w1 ++ '(' :: c :: ')' :: rest).dropWhile isPySpace
      = '(' :: c :: ')' :: rest := by
    rw [List.dropWhile_append_of_pos hw1, List.dropWhile_cons,
      show isPySpace '(' = false from by decide]
    simp
  rw [h1]
  simp [hc]

theorem match_option_decomp {s : Para} {c : Char} {b : Para}
    (h : match_option s = some (c, b)) :
    isOptLetter c = true ∧
    ∃ w1 w2, (∀ a ∈ w1, isPySpace a = true) ∧ (∀ a ∈ w2, isPySpace a = true) ∧
      s = w1 ++ '(' :: c :: ')' :: (w2 ++ b) ∧
      (∀ x, b.head? = some x → isPySpace x = false) := by
  unfold match_option at h
  split at h
  · rename_i a c' b' rest heq
    by_cases hcond : (a = '(' && b' = ')' && isOptLetter c') = true
    · rw [if_pos hcond] at h
      simp only [Bool.and_eq_true, decide_eq_true_eq] at hcond
      obtain ⟨⟨rfl, rfl⟩, hl⟩ := hcond
      injection h with h'
      obtain ⟨rfl, rfl⟩ : c' = c ∧ rest.dropWhile isPySpace = b := by
        simpa [Prod.ext_iff] using h'
      refine ⟨hl, s.takeWhile isPySpace, rest.takeWhile isPySpace,
        fun a ha => List.mem_takeWhile_imp ha,
        fun a ha => List.mem_takeWhile_imp ha, ?_, head_dropWhile_false rest⟩
      conv_lhs => rw [← List.takeWhile_append_dropWhile (p := isPySpace) (l := s)]
      rw [heq, List.takeWhile_append_dropWhile]
    · rw [if_neg hcond] at h
      exact absurd h (by simp)
  · exact absurd h (by simp)

theorem rdrop_self_getLast {s : Para} (h : rdrop s = s) :
    ∀ x, s.getLast? = some x → isPySpace x = false := by
  intro x hx
  have hrev : s.reverse.dropWhile isPySpace = s.reverse := by
    have h2 := congrArg List.reverse h
    rwa [rdrop, List.reverse_reverse] at h2
  have hhead : (s.reverse.dropWhile isPySpace).head? = some x := by
    rw [hrev, List.head?_reverse]
    exact hx
  exact head_dropWhile_false _ _ hhead

theorem pyStrip_self_parts {s : Para} (hstrip : pyStrip s = s) :
    s.dropWhile isPySpace = s ∧ rdrop s = s := by
  have hlen1 : (s.dropWhile isPySpace).length ≤ s.length :=
    (List.dropWhile_suffix isPySpace).length_le
  have hlen2 : (pyStrip s).length ≤ (s.dropWhile isPySpace).length := by
    rw [pyStrip_eq_rdrop]
    unfold rdrop
    rw [List.length_reverse]
    calc ((s.dropWhile isPySpace).reverse.dropWhile isPySpace).length
        ≤ (s.dropWhile isPySpace).reverse.length :=
          (List.dropWhile_suffix isPySpace).length_le
      _ = (s.dropWhile isPySpace).length := List.length_reverse ..
  have hslen := congrArg List.length hstrip
  have heq : (s.dropWhile isPySpace).length = s.length := by omega
  have hdrop : s.dropWhile isPySpace = s :=
    (List.dropWhile_suffix isPySpace).eq_of_length heq
  refine ⟨hdrop, ?_⟩
  rw [pyStrip_eq_rdrop, hdrop] at hstrip
  exact hstrip

/-- Claim C5: the option matcher succeeds exactly on paragraphs of the
spec's option form, and on success returns the letter and the remaining
text with surrounding whitespace trimmed and internal content preserved
(stated for trimmed, newline-free paragraphs, which is what the splitting
step produces). -/
theorem claim_C5 (s : Para) (hnl : '\n' ∉ s) (hstrip : pyStrip s = s) :
    ((match_option s).isSome ↔ specOptionForm s) ∧
    (∀ c b, match_option s = some (c, b) →
      isOptLetter c = true ∧ pyStrip b = b ∧
      ∃ w1 w2, (∀ a ∈ w1, isPySpace a = true) ∧ (∀ a ∈ w2, isPySpace a = true) ∧
        s = w1 ++ '(' :: c :: ')' :: (w2 ++ b)) := by
  constructor
  · constructor
    · intro hsome
      obtain ⟨⟨c, b⟩, hcb⟩ := Option.isSome_iff_exists.mp hsome
      obtain ⟨hl, w1, w2, hw1, hw2, hs, -⟩ := match_option_decomp hcb
      exact ⟨w1, c, w2, b, hs, hw1, hl, hw2⟩
    · rintro ⟨w1, c, w2, body, rfl, hw1, hc, hw2⟩
      rw [match_option_pos hw1 hc]
      rfl
  · intro c b hcb
    obtain ⟨hl, w1, w2, hw1, hw2, hs, hbhead⟩ := match_option_decomp hcb
    refine ⟨hl, ?_, w1, w2, hw1, hw2, hs⟩
    cases hb : b with
    | nil => rfl
    | cons b0 bs =>
        rw [← hb]
        have hsuf : b <:+ s :=
          ⟨w1 ++ '(' :: c :: ')' :: w2, by rw [hs]; simp⟩
        have hlast : ∀ x, b.getLast? = some x → isPySpace x = false := by
          intro x hx
          apply rdrop_self_getLast (pyStrip_self_parts hstrip).2
          obtain ⟨t, rfl⟩ := hsuf
          rw [List.getLast?_append, hx]
          rfl
        have hdropb : b.dropWhile isPySpace = b := by
          rw [hb]
          exact dropWhile_self_of_head fun x hx => hbhead x (hb ▸ hx)
        rw [pyStrip_eq_rdrop, hdropb]
        exact rdrop_eq_self_of_last hlast

/-- Witness for claim C5 at the concrete paragraph "(a) 9.8". -/
theorem claim_C5_witness :
    ('\n' ∉ "(a) 9.8".data) ∧ pyStrip "(a) 9.8".data = "(a) 9.8".data ∧
    (((match_option "(a) 9.8".data).isSome ↔ specOptionForm "(a) 9.8".data) ∧
      (∀ c b, match_option "(a) 9.8".data = some (c, b) →
        isOptLetter c = true ∧ pyStrip b = b ∧
        ∃ w1 w2, (∀ a ∈ w1, isPySpace a = true) ∧ (∀ a ∈ w2, isPySpace a = true) ∧
          "(a) 9.8".data = w1 ++ '(' :: c :: ')' :: (w2 ++ b))) :=
  ⟨by decide, by decide, claim_C5 _ (by decide) (by decide)⟩

/-- The shape of an option paragraph: optional indentation, a parenthesised
letter, then everything after the closing parenthesis. -/
def optionForm (w1 : Para) (c : Char) (rest : Para) : Para :=
  w1 ++ '(' :: c :: ')' :: rest

/-- Counterexample to claim C10 as stated: two paragraph sequences that are
identical except for the letter of an option-form paragraph (same body)
can produce different question records, because a paragraph of that form
whose body contains a question-indicator word is classified as a question
start and the whole paragraph, letter included, becomes the question text. -/
theorem claim_C10_counterexample :
    extract_questions [ "(a) what is the value of g?".data ]
      ≠ extract_questions [ "(b) what is the value of g?".data ] := by
  decide

/-- Claim C10 (amended): for two paragraph sequences identical except for
the option letter of an option-form paragraph with the same body, provided
that paragraph is not itself classified as a question start, the assembler
produces identical question records — only the extracted body, never the
letter, is stored. -/
theorem claim_C10_amended (pre suf : List Para) (w1 : Para) (c1 c2 : Char)
    (rest : Para)
    (hw1 : ∀ a ∈ w1, isPySpace a = true)
    (hc1 : isOptLetter c1 = true) (hc2 : isOptLetter c2 = true)
    (hq1 : is_question (optionForm w1 c1 rest) = false)
    (hq2 : is_question (optionForm w1 c2 rest) = false) :
    extract_questions (pre ++ optionForm w1 c1 rest :: suf)
      = extract_questions (pre ++ optionForm w1 c2 rest :: suf) := by
  have hstep : ∀ st : EState,
      stepPara st (optionForm w1 c1 rest) = stepPara st (optionForm w1 c2 rest) := by
    intro st
    unfold stepPara
    rw [hq1, hq2]
    simp only [Bool.false_eq_true, if_false]
    cases st.current with
    | none => rfl
    | some cq =>
        unfold optionForm
        rw [match_option_pos hw1 hc1, match_option_pos hw1 hc2]
  unfold extract_questions
  rw [List.foldl_append, List.foldl_append, List.foldl_cons, List.foldl_cons, hstep]

/-- Witness for the amended claim C10 on a concrete two-paragraph input. -/
theorem claim_C10_witness :
    isOptLetter 'a' = true ∧ isOptLetter 'b' = true ∧
    is_question (optionForm [] 'a' " 9.8".data) = false ∧
    is_question (optionForm [] 'b' " 9.8".data) = false ∧
    extract_questions
        [ "1. What is the value of g?".data, optionForm [] 'a' " 9.8".data ]
      = extract_questions
        [ "1. What is the value of g?".data, optionForm [] 'b' " 9.8".data ] :=
  ⟨by decide, by decide, by decide, by decide,
    claim_C10_amended [ "1. What is the value of g?".data ] [] [] 'a' 'b'
      " 9.8".data (by simp) (by decide) (by decide) (by decide) (by decide)⟩

/-- Counterexample to claim C1 as stated: on the Scenario A paragraphs the
question texts are not the two bare stems — the "Solution:" line, which is
neither a question start nor an option line, is appended to question 1's
text as a continuation line by the assembler. -/
theorem claim_C1_counterexample :
    (extract_questions scenarioA).map (fun q => q.text)
      ≠ [ "1. What is the value of g?".data,
          "2. Find the ratio of masses.".data ] := by
  decide

/-- Claim C1 (amended): Scenario A yields exactly two questions numbered
"1" and "2"; question 1 has text "1. What is the value of g?" with the
Solution line appended on a new line, and options ["9.8", "10"]; question 2
has text "2. Find the ratio of masses." and options ["1:2"]; the
Instructions line appears in no question. -/
theorem claim_C1_amended :
    extract_questions scenarioA =
      [ { number := "1".data,
          text := "1. What is the value of g?\nSolution: g = 9.8 m/s^2".data,
          subject := none, options := [ "9.8".data, "10".data ],
          answer := none, marked := false },
        { number := "2".data,
          text := "2. Find the ratio of masses.".data,
          subject := none, options := [ "1:2".data ],
          answer := none, marked := false } ] := by
  decide

/-- Claim C7: Option Backfill is idempotent. -/
theorem claim_C7 (qs : List Question) : backfill (backfill qs) = backfill qs := by
  induction qs with
  | nil => rfl
  | cons q qs ih =>
      simp only [backfill, List.map_cons] at ih ⊢
      rw [ih]
      congr 1
      by_cases h : q.options.isEmpty
      · simp only [if_pos h]
        simp [mock_options]
      · simp only [if_neg h]

/-- Claim C6: after Option Backfill, a question whose options were empty has
exactly the 4 deterministic placeholders parameterized by its number, and a
question with one or more parsed options keeps them unchanged. -/
theorem claim_C6 (qs : List Question) (i : Nat) (h : i < qs.length)
    (h' : i < (backfill qs).length) :
    ((qs.get ⟨i, h⟩).options = [] →
      ((backfill qs).get ⟨i, h'⟩).options = mock_options (qs.get ⟨i, h⟩).number ∧
      ((backfill qs).get ⟨i, h'⟩).options.length = 4) ∧
    ((qs.get ⟨i, h⟩).options ≠ [] →
      ((backfill qs).get ⟨i, h'⟩).options = (qs.get ⟨i, h⟩).options) := by
  have hbg : (backfill qs).get ⟨i, h'⟩
      = if (qs.get ⟨i, h⟩).options.isEmpty
        then { qs.get ⟨i, h⟩ with options := mock_options (qs.get ⟨i, h⟩).number }
        else qs.get ⟨i, h⟩ := by
    simp only [backfill, List.get_eq_getElem, List.getElem_map]
  constructor
  · intro hempty
    have he : (qs.get ⟨i, h⟩).options.isEmpty = true := by
      rw [List.isEmpty_iff]
      exact hempty
    rw [hbg, if_pos he]
    exact ⟨rfl, rfl⟩
  · intro hne
    have he : ¬ ((qs.get ⟨i, h⟩).options.isEmpty = true) := by
      rw [List.isEmpty_iff]
      exact hne
    rw [hbg, if_neg he]

/-- A question record with no parsed options, for the claim C6 witness. -/
def qEmptyOpts : Question :=
  { number := "7".data, text := "t".data, subject := none,
    options := [], answer := none, marked := false }

/-- A question record with two parsed options, for the claim C6 witness. -/
def qTwoOpts : Question :=
  { number := "8".data, text := "u".data, subject := none,
    options := [ "x".data, "y".data ], answer := none, marked := false }

/-- Witness for claim C6 on a record set with an empty-option question and a
two-option question. -/
theorem claim_C6_witness :
    ((([qEmptyOpts, qTwoOpts].get ⟨0, by decide⟩).options = [] →
      ((backfill [qEmptyOpts, qTwoOpts]).get ⟨0, by decide⟩).options
        = mock_options ([qEmptyOpts, qTwoOpts].get ⟨0, by decide⟩).number ∧
      ((backfill [qEmptyOpts, qTwoOpts]).get ⟨0, by decide⟩).options.length = 4) ∧
    (([qEmptyOpts, qTwoOpts].get ⟨0, by decide⟩).options ≠ [] →
      ((backfill [qEmptyOpts, qTwoOpts]).get ⟨0, by decide⟩).options
        = ([qEmptyOpts, qTwoOpts].get ⟨0, by decide⟩).options)) ∧
    ((([qEmptyOpts, qTwoOpts].get ⟨1, by decide⟩).options = [] →
      ((backfill [qEmptyOpts, qTwoOpts]).get ⟨1, by decide⟩).options
        = mock_options ([qEmptyOpts, qTwoOpts].get ⟨1, by decide⟩).number ∧
      ((backfill [qEmptyOpts, qTwoOpts]).get ⟨1, by decide⟩).options.length = 4) ∧
    (([qEmptyOpts, qTwoOpts].get ⟨1, by decide⟩).options ≠ [] →
      ((backfill [qEmptyOpts, qTwoOpts]).get ⟨1, by decide⟩).options
        = ([qEmptyOpts, qTwoOpts].get ⟨1, by decide⟩).options)) :=
  ⟨claim_C6 [qEmptyOpts, qTwoOpts] 0 (by decide) (by decide),
    claim_C6 [qEmptyOpts, qTwoOpts] 1 (by decide) (by decide)⟩

/-- Claim C8: with no classifier configured, classification returns unset,
every question is still emitted with `subject` unset, and the output count,
texts and numbers are unaffected. -/
theorem claim_C8 :
    (∀ t : Para, classify_question none t = none) ∧
    (∀ qs : List Question,
      (process_questions none qs).length = qs.length ∧
      (process_questions none qs).map (fun q => q.subject)
        = List.replicate qs.length none ∧
      (process_questions none qs).map (fun q => q.text) = qs.map (fun q => q.text) ∧
      (process_questions none qs).map (fun q => q.number)
        = qs.map (fun q => q.number)) := by
  constructor
  · intro t
    rfl
  · intro qs
    induction qs with
    | nil => exact ⟨rfl, rfl, rfl, rfl⟩
    | cons q qs ih =>
        obtain ⟨ih1, ih2, ih3, ih4⟩ := ih
        have hcons : process_questions none (q :: qs)
            = (if q.options.isEmpty
                then { q with subject := none, options := mock_options q.number }
                else { q with subject := none }) :: process_questions none qs := by
          simp only [process_questions, List.map_cons, classify_question]
        rw [hcons]
        by_cases h : q.options.isEmpty <;>
          refine ⟨?_, ?_, ?_, ?_⟩ <;>
            simp [h, ih1, ih2, ih3, ih4, List.replicate_succ]

/-! ### The answer-key row rejection (claim C4) -/

theorem pyLower_append (x y : Para) : pyLower (x ++ y) = pyLower x ++ pyLower y :=
  List.map_append ..

theorem isOptLetter_of_bounds {c' : Char} (h1 : 'a' ≤ c') (h2 : c' ≤ 'd') :
    isOptLetter c' = true := by
  simp only [isOptLetter, lowerChar_fixed_of_ge_a h1, Bool.and_eq_true,
    decide_eq_true_eq]
  exact ⟨h1, h2⟩

theorem is_question_false_of_short {s : Para}
    (hlen : (pyStrip (pyLower s)).length < 20) : is_question s = false := by
  simp [is_question, hlen]

theorem is_question_false_of_answerKey {s : Para}
    (hany : solution_indicators.any
      (fun i => containsSub i (pyStrip (pyLower s))) = false)
    (hre : matchAnswerKeyRe (pyStrip (pyLower s)) = true) :
    is_question s = false := by
  by_cases hlen : (pyStrip (pyLower s)).length < 20
  · simp [is_question, hlen]
  · simp [is_question, hlen, hany, hre]

theorem matchAnswerKeyRe_shape {ds dot w2 : Para} {c' : Char}
    (hne : ds ≠ []) (hds : ∀ a ∈ ds, isDigitC a = true)
    (hdot : dot = [] ∨ dot = ['.'])
    (hw2 : ∀ a ∈ w2, isPySpace a = true)
    (hc1 : 'a' ≤ c') (hc2 : c' ≤ 'd') :
    matchAnswerKeyRe (ds ++ (dot ++ (w2 ++ [c']))) = true := by
  have hresthead : ∀ x, (dot ++ (w2 ++ [c'])).head? = some x → isDigitC x = false := by
    intro x hx
    rcases hdot with rfl | rfl
    · rw [List.nil_append] at hx
      cases w2 with
      | nil =>
          simp only [List.nil_append, List.head?_cons, Option.some.injEq] at hx
          subst hx
          exact not_digit_of_ge_a hc1
      | cons a as =>
          simp only [List.cons_append, List.head?_cons, Option.some.injEq] at hx
          subst hx
          exact not_digit_of_space (hw2 a (by simp))
    · simp only [List.cons_append, List.nil_append, List.head?_cons,
        Option.some.injEq] at hx
      subst hx
      decide
  have hT : (ds ++ (dot ++ (w2 ++ [c']))).dropWhile isPySpace
      = ds ++ (dot ++ (w2 ++ [c'])) := by
    cases ds with
    | nil => exact absurd rfl hne
    | cons d ds' =>
        rw [List.cons_append, List.dropWhile_cons,
          not_space_of_digit (hds d (by simp))]
        simp
  have htake : (ds ++ (dot ++ (w2 ++ [c']))).takeWhile isDigitC = ds := by
    rw [List.takeWhile_append_of_pos hds, takeWhile_nil_of_head hresthead,
      List.append_nil]
  have hdrop : (ds ++ (dot ++ (w2 ++ [c']))).dropWhile isDigitC
      = dot ++ (w2 ++ [c']) := by
    rw [List.dropWhile_append_of_pos hds, dropWhile_self_of_head hresthead]
  have htail : (w2 ++ [c']).dropWhile isPySpace = [c'] := by
    rw [List.dropWhile_append_of_pos hw2, List.dropWhile_cons,
      not_space_of_ge_a hc1]
    simp
  simp only [matchAnswerKeyRe, hT, htake, hdrop]
  rw [if_neg (by simp [hne])]
  rcases hdot with rfl | rfl
  · have hhead : ¬ ((w2 ++ [c']).head? = some '.') := by
      intro hx
      cases w2 with
      | nil =>
          rw [List.nil_append, List.head?_cons, Option.some.injEq] at hx
          subst hx
          exact absurd hc1 (by decide)
      | cons a as =>
          rw [List.cons_append, List.head?_cons, Option.some.injEq] at hx
          subst hx
          exact absurd (hw2 '.' (by simp)) (by decide)
    rw [List.nil_append, if_neg hhead, htail]
    simp [isOptLetter_of_bounds hc1 hc2]
  · simp [htail, isOptLetter_of_bounds hc1 hc2]

/-- Claim C4: every paragraph whose entire content matches the answer-key
row pattern "optional leading number, optional period, single option letter
a-d, nothing else" (case-insensitive) is rejected by `is_question`. -/
theorem claim_C4 (s : Para) (hrow : specAnswerKeyRow s) : is_question s = false := by
  obtain ⟨w1, ds, dot, w2, c, w3, rfl, hw1, hds, hdot, hw2, hc, hw3⟩ := hrow
  obtain ⟨hca, hcb⟩ := optLetter_bounds hc
  have hcspace : isPySpace (lowerChar c) = false := not_space_of_ge_a hca
  have hlw1 : pyLower w1 = w1 := pyLower_fixed fun a ha => lowerChar_space (hw1 a ha)
  have hlds : pyLower ds = ds := pyLower_fixed fun a ha => lowerChar_digit (hds a ha)
  have hlw2 : pyLower w2 = w2 := pyLower_fixed fun a ha => lowerChar_space (hw2 a ha)
  have hlw3 : pyLower w3 = w3 := pyLower_fixed fun a ha => lowerChar_space (hw3 a ha)
  have hldot : pyLower dot = dot := by
    rcases hdot with rfl | ⟨-, rfl⟩
    · rfl
    · decide
  have hlc : pyLower [c] = [lowerChar c] := rfl
  have hlow : pyLower (w1 ++ ds ++ dot ++ w2 ++ [c] ++ w3)
      = w1 ++ ds ++ dot ++ w2 ++ [lowerChar c] ++ w3 := by
    simp only [pyLower_append, hlw1, hlds, hldot, hlw2, hlw3, hlc]
  by_cases hdse : ds = []
  · subst hdse
    have hdot0 : dot = [] := by
      rcases hdot with rfl | ⟨hne, -⟩
      · rfl
      · exact absurd rfl hne
    subst hdot0
    have hw12 : ∀ a ∈ w1 ++ w2, isPySpace a = true := by
      intro a ha
      rcases List.mem_append.mp ha with ha | ha
      · exact hw1 a ha
      · exact hw2 a ha
    have hsand := pyStrip_sandwich (w1 ++ w2) w3 [lowerChar c] hw12 hw3
      (by intro x hx; simp only [List.head?_cons, Option.some.injEq] at hx;
          subst hx; exact hcspace)
      (by intro x hx; simp only [List.getLast?_singleton, Option.some.injEq] at hx;
          subst hx; exact hcspace)
    have harg : (w1 ++ [] ++ [] ++ w2 ++ [lowerChar c] ++ w3 : Para)
        = (w1 ++ w2) ++ [lowerChar c] ++ w3 := by
      simp [List.append_assoc]
    have ht : pyStrip (pyLower (w1 ++ [] ++ [] ++ w2 ++ [c] ++ w3)) = [lowerChar c] := by
      rw [hlow, harg]
      exact hsand
    apply is_question_false_of_short
    rw [ht]
    simp
  · obtain ⟨d, ds', rfl⟩ := List.exists_cons_of_ne_nil hdse
    have hchead : ∀ x, ((d :: ds') ++ (dot ++ (w2 ++ [lowerChar c]))).head? = some x →
        isPySpace x = false := by
      intro x hx
      simp only [List.cons_append, List.head?_cons, Option.some.injEq] at hx
      subst hx
      exact not_space_of_digit (hds d (by simp))
    have hclast : ∀ x, ((d :: ds') ++ (dot ++ (w2 ++ [lowerChar c]))).getLast? = some x →
        isPySpace x = false := by
      have hg : ((d :: ds') ++ (dot ++ (w2 ++ [lowerChar c]))).getLast?
          = some (lowerChar c) := by
        have hsplit : (d :: ds') ++ (dot ++ (w2 ++ [lowerChar c]))
            = ((d :: ds') ++ (dot ++ w2)) ++ [lowerChar c] := by
          simp [List.append_assoc]
        rw [hsplit, List.getLast?_concat]
      intro x hx
      rw [hg, Option.some.injEq] at hx
      subst hx
      exact hcspace
    have hsand := pyStrip_sandwich w1 w3 ((d :: ds') ++ (dot ++ (w2 ++ [lowerChar c])))
      hw1 hw3 hchead hclast
    have harg : (w1 ++ (d :: ds') ++ dot ++ w2 ++ [lowerChar c] ++ w3 : Para)
        = w1 ++ ((d :: ds') ++ (dot ++ (w2 ++ [lowerChar c]))) ++ w3 := by
      simp [List.append_assoc]
    have ht : pyStrip (pyLower (w1 ++ (d :: ds') ++ dot ++ w2 ++ [c] ++ w3))
        = (d :: ds') ++ (dot ++ (w2 ++ [lowerChar c])) := by
      rw [hlow, harg]
      exact hsand
    have halpha : isLowerAlpha (lowerChar c) = true := alpha_of_optLetter_lowered hc
    have hd0 : isLowerAlpha d = false := not_alpha_of_digit (hds d (by simp))
    have h1 : ds'.countP isLowerAlpha = 0 :=
      List.countP_eq_zero.mpr fun a ha => by
        simp [not_alpha_of_digit (hds a (by simp [ha]))]
    have h2 : dot.countP isLowerAlpha = 0 := by
      rcases hdot with rfl | ⟨-, rfl⟩ <;> decide
    have h3 : w2.countP isLowerAlpha = 0 :=
      List.countP_eq_zero.mpr fun a ha => by
        simp [not_alpha_of_space (hw2 a ha)]
    have hcount : ((d :: ds') ++ (dot ++ (w2 ++ [lowerChar c]))).countP isLowerAlpha
        = 1 := by
      simp [List.countP_cons, List.countP_append, h1, h2, h3, hd0, halpha]
    have hall2 : ∀ ind ∈ solution_indicators, 2 ≤ ind.countP isLowerAlpha := by
      decide
    have hnosol : ∀ ind ∈ solution_indicators,
        ¬ (containsSub ind ((d :: ds') ++ (dot ++ (w2 ++ [lowerChar c]))) = true) := by
      intro ind hmem hsub
      have hin : ind <:+: (d :: ds') ++ (dot ++ (w2 ++ [lowerChar c])) := by
        simpa [containsSub] using hsub
      have hle := hin.sublist.countP_le (p := isLowerAlpha)
      have h2le := hall2 ind hmem
      omega
    have hany : solution_indicators.any
        (fun i => containsSub i ((d :: ds') ++ (dot ++ (w2 ++ [lowerChar c]))))
          = false :=
      List.any_eq_false.mpr hnosol
    have hre : matchAnswerKeyRe ((d :: ds') ++ (dot ++ (w2 ++ [lowerChar c]))) = true :=
      matchAnswerKeyRe_shape hdse hds (hdot.imp id And.right) hw2 hca hcb
    apply is_question_false_of_answerKey
    · rw [ht]
      exact hany
    · rw [ht]
      exact hre

/-- Witness for claim C4 at the Scenario B paragraph "3. b". -/
theorem claim_C4_witness :
    specAnswerKeyRow "3. b".data ∧ is_question "3. b".data = false :=
  ⟨⟨[], "3".data, ".".data, " ".data, 'b', [],
      by decide, by decide, by decide, by decide, by decide, by decide, by decide⟩,
    claim_C4 _ ⟨[], "3".data, ".".data, " ".data, 'b', [],
      by decide, by decide, by decide, by decide, by decide, by decide, by decide⟩⟩

end JEE
